import Mathlib

/-!
Shallow embedding (in Lean 4) of the privileged command-execution boundary and
configuration-file editing core of the BLOGRON panel backend (Go).

The Go code manipulates strings; we model Go strings as Lean `String`
(equivalently their `List Char` of runes) and translate each Go function
from its source.  Go standard-library string helpers (`strings.Split`,
`strings.Fields`, `strings.TrimSpace`, `strings.Contains`,
`strings.Replace`, `strings.HasPrefix`, `path/filepath.Clean`,
`path/filepath.Join`, `strconv.ParseInt`, `strconv.Atoi`) are modelled by
the small functions in the first section.
-/

set_option maxHeartbeats 1000000

namespace Blogron

/-! ### Models of Go standard-library string helpers -/

/-- Whitespace as used by `strings.Fields` / `strings.TrimSpace`
(`unicode.IsSpace`), restricted to the ASCII space characters. -/
def isGoSpace (c : Char) : Bool :=
  c = ' ' || c = '\t' || c = '\n' || c = '\x0b' || c = '\x0c' || c = '\r'

/-- `strings.TrimSpace` on rune lists. -/
def goTrimSpaceL (s : List Char) : List Char :=
  ((s.dropWhile isGoSpace).reverse.dropWhile isGoSpace).reverse

/-- `strings.TrimSpace`. -/
def goTrimSpace (s : String) : String :=
  ⟨goTrimSpaceL s.data⟩

/-- `strings.Split(s, "\n")` on rune lists. -/
def splitNlL : List Char → List (List Char)
  | [] => [[]]
  | c :: rest =>
    if c = '\n' then [] :: splitNlL rest
    else
      match splitNlL rest with
      | [] => [[c]]
      | r :: rs => (c :: r) :: rs

/-- `strings.Join(lines, "\n")` on rune lists. -/
def joinNlL : List (List Char) → List Char
  | [] => []
  | [l] => l
  | l :: l2 :: ls => l ++ '\n' :: joinNlL (l2 :: ls)

/-- `strings.Split(s, "\n")`. -/
def goSplitNl (s : String) : List String :=
  (splitNlL s.data).map (⟨·⟩)

/-- `strings.Join(lines, "\n")`. -/
def goJoinNl (ls : List String) : String :=
  ⟨joinNlL (ls.map String.data)⟩

/-- `strings.HasPrefix(s, pre)`: literal string prefix test. -/
def goStartsWith (s pre : String) : Bool :=
  pre.data.isPrefixOf s.data

/-- `strings.Contains(s, sub)` on rune lists. -/
def containsSubL (s sub : List Char) : Bool :=
  if sub.isPrefixOf s then true
  else
    match s with
    | [] => false
    | _ :: t => containsSubL t sub

/-- `strings.Contains`. -/
def goContains (s sub : String) : Bool :=
  containsSubL s.data sub.data

/-- Accumulator loop of `strings.Fields`: `cur` holds the reversed current
field being scanned. -/
def fieldsAux (cur : List Char) : List Char → List (List Char)
  | [] => if cur.isEmpty then [] else [cur.reverse]
  | c :: t =>
    if isGoSpace c then
      if cur.isEmpty then fieldsAux [] t else cur.reverse :: fieldsAux [] t
    else fieldsAux (c :: cur) t

/-- `strings.Fields` on rune lists: maximal runs of non-whitespace. -/
def goFieldsL (s : List Char) : List (List Char) :=
  fieldsAux [] s

/-- `strings.Fields`. -/
def goFields (s : String) : List String :=
  (goFieldsL s.data).map (⟨·⟩)

/-- `strings.Replace(s, old, new, 1)` on rune lists: replace the first
occurrence of `old` (when present) by `new`. -/
def replaceFirstL (old new : List Char) : List Char → List Char
  | [] => if old.isEmpty then new else []
  | c :: t =>
    if old.isPrefixOf (c :: t) then new ++ (c :: t).drop old.length
    else c :: replaceFirstL old new t

/-- `strings.Replace(s, old, new, 1)`. -/
def goReplaceFirst (s old new : String) : String :=
  ⟨replaceFirstL old.data new.data s.data⟩

/-- Digits-only parse used to model `strconv`. -/
def digitsVal : List Char → Option Nat
  | [] => none
  | l => l.foldlM (fun acc c => if c.isDigit then some (acc * 10 + (c.toNat - 48)) else none) 0

/-- `strconv.ParseInt(s, 10, 64)`, as used in `parseZoneFile` where the
error is discarded: on a syntax error the returned value is `0`; on range
overflow the value is clamped to the `int64` range. -/
def goParseInt64 (s : List Char) : Int :=
  match s with
  | '-' :: rest =>
    match digitsVal rest with
    | none => 0
    | some v => if (v : Int) ≤ 2 ^ 63 then -(v : Int) else -(2 ^ 63)
  | '+' :: rest =>
    match digitsVal rest with
    | none => 0
    | some v => if (v : Int) < 2 ^ 63 then (v : Int) else 2 ^ 63 - 1
  | _ =>
    match digitsVal s with
    | none => 0
    | some v => if (v : Int) < 2 ^ 63 then (v : Int) else 2 ^ 63 - 1

/-- Whether `strconv.Atoi(s)` succeeds (returns `err == nil`), for `int64`
sized integers; `parseZoneFile` only uses the success bit. -/
def goAtoiOk (s : List Char) : Bool :=
  match s with
  | '-' :: rest => (digitsVal rest).isSome
  | '+' :: rest => (digitsVal rest).isSome
  | _ => (digitsVal s).isSome

/-! ### Model of `path/filepath.Clean` and `filepath.Join` (Unix rules) -/

/-- Segment-stack processing at the heart of `filepath.Clean`: `rooted`
tells whether the path began with `/`; `..` pops a previous segment, is
dropped at the root of a rooted path, and is kept for a relative path. -/
def cleanSegs (rooted : Bool) : List (List Char) → List (List Char) → List (List Char)
  | stack, [] => stack.reverse
  | stack, seg :: rest =>
    if seg = ['.', '.'] then
      match stack with
      | [] => if rooted then cleanSegs rooted [] rest
              else cleanSegs rooted [['.', '.']] rest
      | top :: below =>
        if top = ['.', '.'] then cleanSegs rooted (['.', '.'] :: top :: below) rest
        else cleanSegs rooted below rest
    else cleanSegs rooted (seg :: stack) rest

/-- Split a path on `/`, discarding empty segments and `.` segments
(steps 1-2 of `filepath.Clean`). -/
def pathSegs (s : List Char) : List (List Char) :=
  (splitOnSlash s).filter (fun seg => ¬(seg.isEmpty || seg = ['.']))
where
  splitOnSlash : List Char → List (List Char)
    | [] => [[]]
    | c :: rest =>
      if c = '/' then [] :: splitOnSlash rest
      else
        match splitOnSlash rest with
        | [] => [[c]]
        | r :: rs => (c :: r) :: rs

/-- `path/filepath.Clean` for Unix paths, via its standard segment
description: collapse separators, drop `.`, resolve `..` lexically,
eliminate `..` at the root of a rooted path; empty cleans to `.`. -/
def goClean (s : String) : String :=
  if s.data.isEmpty then "."
  else
    let rooted := s.data.head? = some '/'
    let segs := cleanSegs rooted [] (pathSegs s.data)
    let body := joinSlash segs
    if rooted then ⟨'/' :: body⟩
    else if body.isEmpty then "." else ⟨body⟩
where
  joinSlash : List (List Char) → List Char
    | [] => []
    | [l] => l
    | l :: ls => l ++ '/' :: joinSlash ls

/-- `filepath.Join(a, b)` for non-empty `a`: join with `/` then `Clean`. -/
def goJoin2 (a b : String) : String :=
  goClean ⟨a.data ++ '/' :: b.data⟩

/-! ### `util` package: sanitizer and command gatekeeper
(source: the `util` package file holding `RunCmd`, `allowedCommands`,
`validateCommand` and `Sanitize`). -/

/-- The character whitelist of `util.Sanitize`. -/
def isSanitizedChar (r : Char) : Bool :=
  ('a' ≤ r && r ≤ 'z') || ('A' ≤ r && r ≤ 'Z') || ('0' ≤ r && r ≤ '9') ||
    r = '-' || r = '_' || r = '.'

/-- `util.Sanitize`: strips anything that isn't alphanumeric, dot, dash,
or underscore (the Go loop appends exactly the runes passing the
whitelist test, i.e. it filters). -/
def Sanitize (s : String) : String :=
  ⟨s.data.filter isSanitizedChar⟩

/-- `util.allowedCommands`: the static allowlist restricting `RunCmd`
(a Go `map[string]bool` whose lookup defaults to `false`). -/
def allowedCommands (name : String) : Bool :=
  name ∈ ["useradd", "userdel", "usermod", "passwd", "chpasswd", "nginx",
          "systemctl", "certbot", "mysql", "mysqladmin", "mkdir", "rm",
          "mv", "ls", "cat", "find", "df", "free", "uptime", "journalctl",
          "ln", "chmod", "chown"]

/-- The shell metacharacters rejected by `validateCommand`, as the list of
one-character strings the Go loop ranges over. -/
def shellMetaChars : List String :=
  [";", "&", "|", "\x60", "$", "(", ")", "<", ">", "\n", "\r"]

/-- Errors produced by the gatekeeper (`fmt.Errorf` values in Go). -/
inductive CmdError
  /-- `command %q is not allowed` -/
  | notAllowed (name : String)
  /-- `argument contains disallowed character: %q` -/
  | disallowedArg (arg : String)
  /-- `command failed: <stderr>` -/
  | execFailed (stderr : String)
deriving DecidableEq, Repr

/-- The inner loop of `validateCommand`: whether `arg` contains any of the
shell metacharacters. -/
def argHasMeta (arg : String) : Bool :=
  shellMetaChars.any (fun ch => goContains arg ch)

/-- The argument loop of `validateCommand`: the first argument (in order)
containing a shell metacharacter, if any. -/
def findBadArg : List String → Option String
  | [] => none
  | arg :: rest => if argHasMeta arg then some arg else findBadArg rest

/-- `util.validateCommand`: allowlist check, then per-argument scan for
shell metacharacters (the loop returns on the first offending argument). -/
def validateCommand (name : String) (args : List String) : Except CmdError Unit :=
  if ¬allowedCommands name then .error (.notAllowed name)
  else
    match findBadArg args with
    | some arg => .error (.disallowedArg arg)
    | none => .ok ()

instance {ε α : Type} [DecidableEq ε] [DecidableEq α] : DecidableEq (Except ε α) := fun
  | .ok a, .ok b =>
    if h : a = b then .isTrue (by rw [h]) else .isFalse (by simp [h])
  | .ok _, .error _ => .isFalse (by simp)
  | .error _, .ok _ => .isFalse (by simp)
  | .error a, .error b =>
    if h : a = b then .isTrue (by rw [h]) else .isFalse (by simp [h])

/-- An external process spawn: `exec.Command(name, args...)`. -/
structure SpawnedCmd where
  name : String
  args : List String
deriving DecidableEq, Repr

/-- The outside world: what each spawned process would do (its combined
stdout on success, its stderr text on failure). -/
def ExecEnv : Type := SpawnedCmd → Except String String

/-- `util.RunCmd`: validate, then spawn `sudo name args...`.  The second
component is the list of processes actually spawned, so that "returns an
error without spawning any process" is expressible. -/
def RunCmd (ex : ExecEnv) (name : String) (args : List String) :
    Except CmdError String × List SpawnedCmd :=
  match validateCommand name args with
  | .error e => (.error e, [])
  | .ok _ =>
    let cmd : SpawnedCmd := ⟨"sudo", name :: args⟩
    match ex cmd with
    | .ok out => (.ok (goTrimSpace out), [cmd])
    | .error stderr => (.error (.execFailed (goTrimSpace stderr)), [cmd])

/-! ### `api/files.go`: the path confiner -/

/-- Errors of the Go `os` package used by `safePath`. -/
inductive GoError
  /-- `os.ErrPermission` -/
  | errPermission
deriving DecidableEq, Repr

/-- `fileManagerRoot` in `api/files.go`. -/
def fileManagerRoot : String := "/var/www"

/-- `safePath` from `api/files.go`: resolve the requested path within
`fileManagerRoot` (`filepath.Join` of the root with the cleaned
force-rooted request) and check the result still has the root as a
literal string prefix (`strings.HasPrefix`). -/
def safePath (requested : String) : Except GoError String :=
  let requested := if requested = "" then "/" else requested
  let full := goJoin2 fileManagerRoot (goClean ⟨'/' :: requested.data⟩)
  if ¬goStartsWith full fileManagerRoot then .error .errPermission
  else .ok full

/-! ### `api/dns.go`: zone codec and serial bump -/

/-- `strings.Join(xs, " ")`. -/
def goJoinSp : List String → String
  | [] => ""
  | [x] => x
  | x :: xs => x ++ " " ++ goJoinSp xs

structure DNSRecord where
  name : String
  ttl : String
  type : String
  value : String
deriving DecidableEq, Repr

structure DNSZone where
  domain : String
  serial : Int
  records : List DNSRecord
deriving DecidableEq, Repr

/-- `buildZoneFile` from `api/dns.go` (the `fmt.Sprintf` template with its
`%s` holes filled). -/
def buildZoneFile (domain ip serial : String) : String :=
  "$TTL 3600\n" ++
  "@   IN  SOA ns1." ++ domain ++ ". admin." ++ domain ++ ". (\n" ++
  "            " ++ serial ++ "  ; Serial\n" ++
  "            3600        ; Refresh\n" ++
  "            1800        ; Retry\n" ++
  "            604800      ; Expire\n" ++
  "            300 )       ; Minimum TTL\n" ++
  "\n" ++
  "; Name Servers\n" ++
  "@       IN  NS  ns1." ++ domain ++ ".\n" ++
  "@       IN  NS  ns2." ++ domain ++ ".\n" ++
  "\n" ++
  "; A Records\n" ++
  "@       IN  A   " ++ ip ++ "\n" ++
  "www     IN  A   " ++ ip ++ "\n" ++
  "ns1     IN  A   " ++ ip ++ "\n" ++
  "ns2     IN  A   " ++ ip ++ "\n" ++
  "\n" ++
  "; Mail\n" ++
  "@       IN  MX  10 mail." ++ domain ++ ".\n" ++
  "mail    IN  A   " ++ ip ++ "\n" ++
  "\n" ++
  "; SPF\n" ++
  "@       IN  TXT \"v=spf1 mx a ip4:" ++ ip ++ " -all\"\n"

/-- One iteration of the `parseZoneFile` line loop. -/
def parseZoneLine (zone : DNSZone) (line0 : String) : DNSZone :=
  let line := goTrimSpace line0
  if line = "" || goStartsWith line ";" || goStartsWith line "$" then zone
  else if goContains line "Serial" then
    -- `zone.Serial, _ = strconv.ParseInt(parts[0], 10, 64)`
    match goFields line with
    | [] => zone
    | p0 :: _ => { zone with serial := goParseInt64 p0.data }
  else
    -- Parse record lines: `name ttl IN type value` (guard `len(parts) >= 4
    -- && parts[2] == "IN"`); TTL kept only when `strconv.Atoi` succeeds.
    match goFields line with
    | p0 :: p1 :: p2 :: p3 :: rest =>
      if p2 = "IN" then
        { zone with records := zone.records ++
            [{ name := p0, type := p3, value := goJoinSp rest,
               ttl := if goAtoiOk p1.data then p1 else "" }] }
      else zone
    | _ => zone

/-- The pure core of `parseZoneFile` from `api/dns.go`: the file contents
are given instead of read from disk. -/
def parseZoneContent (domain content : String) : DNSZone :=
  (goSplitNl content).foldl parseZoneLine { domain, serial := 0, records := [] }

/-- A wall-clock instant as far as `time.Now().Format("2006010215")` can
see it: calendar fields down to seconds. -/
structure GoTime where
  year : Nat
  month : Nat
  day : Nat
  hour : Nat
  minute : Nat
  second : Nat
deriving DecidableEq, Repr

/-- The `w` least-significant decimal digits of `n`, zero-padded to width
exactly `w` (the fixed-width zero-padded fields of Go's numeric time
layouts; widths are exact for calendar field values). -/
def padDigits : Nat → Nat → List Char
  | 0, _ => []
  | w + 1, n => padDigits w (n / 10) ++ [Char.ofNat (48 + n % 10)]

/-- `time.Now().Format("2006010215")`: zero-padded year (4), month (2),
day (2), hour (2). -/
def formatYMDH (t : GoTime) : String :=
  ⟨padDigits 4 t.year ++ padDigits 2 t.month ++ padDigits 2 t.day ++ padDigits 2 t.hour⟩

/-- The in-place update `bumpSerial` performs on the matched line:
`strings.Replace(line, parts[0], newSerial, 1)` when the line has at
least one field, the line unchanged otherwise. -/
def bumpLine (serial l : List Char) : List Char :=
  match goFieldsL l with
  | [] => l
  | w :: _ => replaceFirstL w serial l

/-- The matching condition of the `bumpSerial` loop:
`strings.Contains(line, "Serial") || strings.Contains(line, "serial")`. -/
def isSerialLineL (l : List Char) : Bool :=
  containsSubL l "Serial".data || containsSubL l "serial".data

/-- The `bumpSerial` loop: find the first line containing `Serial` or
`serial`, update it, and `break`. -/
def bumpLinesAux (serial : List Char) : List (List Char) → List (List Char)
  | [] => []
  | l :: rest =>
    if isSerialLineL l then bumpLine serial l :: rest
    else l :: bumpLinesAux serial rest

/-- `bumpSerial` from `api/dns.go`, with the impure `time.Now()` passed
in as an explicit `GoTime` argument. -/
def bumpSerial (t : GoTime) (zoneContent : String) : String :=
  ⟨joinNlL (bumpLinesAux (formatYMDH t).data (splitNlL zoneContent.data))⟩

/-! ### `main.go`: crontab parsing and positional deletion -/

structure CronJob where
  id : Nat
  minute : String
  hour : String
  day : String
  month : String
  weekday : String
  command : String
  user : String
  schedule : String
  enabled : Bool
deriving DecidableEq, Repr

/-- `humanReadableCron` from `main.go`. -/
def humanReadableCron (min hour day month weekday : String) : String :=
  if min = "*" && hour = "*" && day = "*" && month = "*" && weekday = "*" then
    "Every minute"
  else if min = "0" && hour = "*" then "Every hour"
  else if min = "0" && hour = "0" && day = "*" && month = "*" && weekday = "*" then
    "Daily at midnight"
  else if min = "0" && hour = "0" && day = "*" && month = "*" && weekday = "0" then
    "Weekly on Sunday"
  else if min = "0" && hour = "0" && day = "1" then "Monthly on the 1st"
  else min ++ " " ++ hour ++ " " ++ day ++ " " ++ month ++ " " ++ weekday

/-- The line loop of `parseCronLines`, carrying the running positional
`id` counter (which starts at 1 and increments only on accepted lines). -/
def parseCronLinesAux (user : String) (id : Nat) : List String → List CronJob
  | [] => []
  | line0 :: rest =>
    let line := goTrimSpace line0
    if line = "" || goStartsWith line "#" || goStartsWith line "MAILTO" ||
        goStartsWith line "PATH" || goStartsWith line "SHELL" then
      parseCronLinesAux user id rest
    else
      match goFields line with
      | p0 :: p1 :: p2 :: p3 :: p4 :: p5 :: ps =>
        { id := id, minute := p0, hour := p1, day := p2, month := p3,
          weekday := p4, command := goJoinSp (p5 :: ps), user := user,
          schedule := humanReadableCron p0 p1 p2 p3 p4, enabled := true }
          :: parseCronLinesAux user (id + 1) rest
      | _ => parseCronLinesAux user id rest -- `len(parts) < 6`: continue

/-- `parseCronLines` from `main.go`. -/
def parseCronLines (content user : String) : List CronJob :=
  parseCronLinesAux user 1 (goSplitNl content)

/-- The `isJob` predicate inside `removeCronLine`: non-blank after
trimming, and not a `#`, `MAILTO` or `PATH` line.  (Note: unlike
`parseCronLines` it does not exclude `SHELL` lines, nor lines with fewer
than six fields.) -/
def isRemovableCronLine (line0 : String) : Bool :=
  let trimmed := goTrimSpace line0
  trimmed ≠ "" && !goStartsWith trimmed "#" &&
    !goStartsWith trimmed "MAILTO" && !goStartsWith trimmed "PATH"

/-- The line loop of `removeCronLine`, carrying the running `jobIdx`
counter: the line on which the incremented counter equals `id` is
skipped, every other line is kept. -/
def removeCronAux (id : Nat) (jobIdx : Nat) : List String → List String
  | [] => []
  | line :: rest =>
    if isRemovableCronLine line then
      if jobIdx + 1 = id then removeCronAux id (jobIdx + 1) rest
      else line :: removeCronAux id (jobIdx + 1) rest
    else line :: removeCronAux id jobIdx rest

/-- The pure core of `removeCronLine` from `main.go`: maps the file
contents that were read to the contents that are written back. -/
def removeCronContent (id : Nat) (content : String) : String :=
  goJoinNl (removeCronAux id 0 (goSplitNl content))

/-- How many lines of the file `removeCronLine` counts as job records. -/
def removableCronCount (content : String) : Nat :=
  ((goSplitNl content).filter isRemovableCronLine).length

/-! ### `api/users.go`: user creation with compensating delete -/

/-- An HTTP response as produced by `util.WriteJSON` / `util.WriteError`. -/
inductive HResp
  | json (status : Nat) (body : List (String × String))
  | err (status : Nat) (msg : String)
deriving DecidableEq, Repr

/-- The `Error()` string of a gatekeeper error (Go `fmt.Errorf` text). -/
def cmdErrorMessage : CmdError → String
  | .notAllowed n => "command \"" ++ n ++ "\" is not allowed"
  | .disallowedArg a => "argument contains disallowed character: \"" ++ a ++ "\""
  | .execFailed stderr => "command failed: " ++ stderr

structure createUserRequest where
  username : String
  password : String
  shell : String
  groups : String
deriving DecidableEq, Repr

/-- The shell allowlist inside `CreateUser`. -/
def allowedShells (shell : String) : Bool :=
  shell ∈ ["/bin/bash", "/bin/sh", "/usr/sbin/nologin"]

/-- The `useradd` argument list built by `CreateUser`. -/
def useraddArgs (shell username groups : String) : List String :=
  let args := ["-m", "-s", shell, username]
  if groups ≠ "" then ["-G", Sanitize groups] ++ args else args

/-- `CreateUser` from `api/users.go`, with the request body already
decoded and the outside world abstracted as an `ExecEnv`; the second
component collects every process spawn across the `RunCmd` calls.
(`len` of the sanitized username and of the password are byte counts in
Go; they agree with rune counts on the ASCII strings involved.) -/
def CreateUser (ex : ExecEnv) (req : createUserRequest) : HResp × List SpawnedCmd :=
  let username := Sanitize req.username
  if username = "" || username.length > 32 then (.err 400 "invalid username", [])
  else if req.password = "" || req.password.length < 8 then
    (.err 400 "password must be at least 8 characters", [])
  else
    let shell := if req.shell = "" then "/bin/bash" else req.shell
    if ¬allowedShells shell then (.err 400 "invalid shell", [])
    else
      match RunCmd ex "useradd" (useraddArgs shell username req.groups) with
      | (.error e, tr) => (.err 500 ("useradd failed: " ++ cmdErrorMessage e), tr)
      | (.ok _, tr1) =>
        match RunCmd ex "chpasswd" [username ++ ":" ++ req.password] with
        | (.error _, tr2) =>
          -- Attempt to clean up the created user
          let del := RunCmd ex "userdel" ["-r", username]
          (.err 500 "failed to set password", tr1 ++ tr2 ++ del.2)
        | (.ok _, tr2) =>
          (.json 201 [("username", username), ("status", "created")], tr1 ++ tr2)

/-! ### `api/email.go`, `api/files.go`, `main.go`: callers of the gatekeeper -/

/-- `GetMailQueue` from `api/email.go`. -/
def GetMailQueue (ex : ExecEnv) : HResp × List SpawnedCmd :=
  match RunCmd ex "postqueue" ["-p"] with
  | (.error e, tr) => (.err 500 (cmdErrorMessage e), tr)
  | (.ok out, tr) => (.json 200 [("queue", out)], tr)

/-- `FlushMailQueue` from `api/email.go` (the `RunCmd` error is ignored). -/
def FlushMailQueue (ex : ExecEnv) : HResp × List SpawnedCmd :=
  (.json 200 [("status", "flushed")], (RunCmd ex "postqueue" ["-f"]).2)

/-- `postfixVirtualMapsFile` from `api/email.go`. -/
def postfixVirtualMapsFile : String := "/etc/postfix/virtual_mailbox_maps"

/-- The postmap rebuild step of `CreateMailbox` / `DeleteMailbox`. -/
def postmapRebuild (ex : ExecEnv) : Except CmdError String × List SpawnedCmd :=
  RunCmd ex "postmap" [postfixVirtualMapsFile]

/-- `wpCliPath` from `api/files.go`. -/
def wpCliPath : String := "/usr/local/bin/wp"

/-- `wpCmd` from `api/files.go`: `sudo -u www-data wp --path=<docroot>
--allow-root <args...>` through `util.RunCmd`. -/
def wpCmd (ex : ExecEnv) (docroot : String) (args : List String) :
    Except CmdError String × List SpawnedCmd :=
  RunCmd ex "sudo" (["-u", "www-data", wpCliPath, "--path=" ++ docroot,
    "--allow-root"] ++ args)

/-- The command the goroutine inside `RunCronNow` (`main.go`) launches
for a matched job. -/
def runCronNowSpawn (ex : ExecEnv) (cmd : String) :
    Except CmdError String × List SpawnedCmd :=
  RunCmd ex "bash" ["-c", cmd]

/-! ### General lemmas about the string-helper models -/

theorem isPfxOf_subset {xs ys : List Char} (h : xs.isPrefixOf ys = true) :
    ∀ c ∈ xs, c ∈ ys := by
  induction xs generalizing ys with
  | nil => intro c hc; cases hc
  | cons x xt ih =>
    cases ys with
    | nil => simp [List.isPrefixOf] at h
    | cons y yt =>
      simp only [List.isPrefixOf, Bool.and_eq_true, beq_iff_eq] at h
      intro c hc
      rcases List.mem_cons.mp hc with rfl | hc
      · exact h.1 ▸ List.mem_cons_self _ _
      · exact List.mem_cons_of_mem _ (ih h.2 c hc)

theorem isPfxOf_append_self (xs ys : List Char) : xs.isPrefixOf (xs ++ ys) = true := by
  induction xs with
  | nil => simp [List.isPrefixOf]
  | cons x xt ih => simp [List.isPrefixOf, ih]

theorem containsSub_mem {s sub : List Char} (h : containsSubL s sub = true) :
    ∀ c ∈ sub, c ∈ s := by
  induction s with
  | nil =>
    rw [containsSubL] at h
    by_cases hp : sub.isPrefixOf ([] : List Char) = true
    · exact isPfxOf_subset hp
    · simp [hp] at h
  | cons x t ih =>
    rw [containsSubL] at h
    by_cases hp : sub.isPrefixOf (x :: t) = true
    · exact isPfxOf_subset hp
    · simp only [hp] at h
      simp only [if_false, Bool.false_eq_true] at h
      intro c hc
      exact List.mem_cons_of_mem _ (ih (by simpa [hp] using h) c hc)

theorem containsSub_of_mem {c : Char} {s : List Char} (h : c ∈ s) :
    containsSubL s [c] = true := by
  induction s with
  | nil => cases h
  | cons x t ih =>
    rw [containsSubL]
    rcases List.mem_cons.mp h with rfl | h
    · simp [List.isPrefixOf]
    · by_cases hp : List.isPrefixOf [c] (x :: t) = true
      · simp [hp]
      · simp [hp, ih h]

theorem mem_replaceFirst {x : Char} {old new s : List Char}
    (h : x ∈ replaceFirstL old new s) : x ∈ s ∨ x ∈ new := by
  induction s with
  | nil =>
    rw [replaceFirstL] at h
    by_cases he : old.isEmpty
    · simp only [he, if_true] at h; exact Or.inr h
    · simp [he] at h
  | cons c t ih =>
    rw [replaceFirstL] at h
    by_cases hp : old.isPrefixOf (c :: t) = true
    · simp only [hp, if_true] at h
      rcases List.mem_append.mp h with h | h
      · exact Or.inr h
      · exact Or.inl (List.mem_of_mem_drop h)
    · simp only [hp] at h
      rcases List.mem_cons.mp (by simpa [hp] using h) with rfl | h
      · exact Or.inl (List.mem_cons_self _ _)
      · rcases ih h with h | h
        · exact Or.inl (List.mem_cons_of_mem _ h)
        · exact Or.inr h

theorem splitNl_ne_nil (s : List Char) : splitNlL s ≠ [] := by
  cases s with
  | nil => simp [splitNlL]
  | cons c rest =>
    rw [splitNlL]
    by_cases hc : c = '\n'
    · simp [hc]
    · simp only [hc, if_false]
      cases splitNlL rest <;> simp

theorem join_split (s : List Char) : joinNlL (splitNlL s) = s := by
  induction s with
  | nil => rfl
  | cons c rest ih =>
    rw [splitNlL]
    by_cases hc : c = '\n'
    · subst hc
      rw [if_pos rfl]
      obtain ⟨l, ls, hls⟩ : ∃ l ls, splitNlL rest = l :: ls := by
        cases h : splitNlL rest with
        | nil => exact absurd h (splitNl_ne_nil rest)
        | cons l ls => exact ⟨l, ls, rfl⟩
      rw [hls] at ih ⊢
      rw [joinNlL]
      simpa using ih
    · simp only [hc, if_false]
      cases h : splitNlL rest with
      | nil => exact absurd h (splitNl_ne_nil rest)
      | cons r rs =>
        rw [h] at ih
        cases rs with
        | nil => rw [joinNlL]; rw [joinNlL] at ih; simpa using ih
        | cons r2 rs2 =>
          rw [joinNlL] at ih ⊢
          simpa using ih

theorem splitNl_no_nl {l s : List Char} (hl : l ∈ splitNlL s) : '\n' ∉ l := by
  induction s generalizing l with
  | nil =>
    simp only [splitNlL] at hl
    rcases List.mem_singleton.mp hl with rfl
    simp
  | cons c rest ih =>
    rw [splitNlL] at hl
    by_cases hc : c = '\n'
    · simp only [hc, if_pos rfl] at hl
      rcases List.mem_cons.mp hl with rfl | hl
      · simp
      · exact ih hl
    · simp only [hc, if_false] at hl
      cases h : splitNlL rest with
      | nil => exact absurd h (splitNl_ne_nil rest)
      | cons r rs =>
        rw [h] at hl
        rcases List.mem_cons.mp hl with rfl | hl
        · intro hmem
          rcases List.mem_cons.mp hmem with heq | hmem
          · exact hc heq.symm
          · exact ih (h ▸ List.mem_cons_self r rs) hmem
        · exact ih (h ▸ List.mem_cons_of_mem r hl)

theorem splitNl_of_no_nl {l : List Char} (h : '\n' ∉ l) : splitNlL l = [l] := by
  induction l with
  | nil => rfl
  | cons c t ih =>
    rw [splitNlL]
    have hc : c ≠ '\n' := fun hc => h (hc ▸ List.mem_cons_self c t)
    simp only [hc, if_false]
    rw [ih (fun hm => h (List.mem_cons_of_mem c hm))]

theorem splitNl_append_nl {l t : List Char} (h : '\n' ∉ l) :
    splitNlL (l ++ '\n' :: t) = l :: splitNlL t := by
  induction l with
  | nil => simp [splitNlL]
  | cons c l' ih =>
    have hc : c ≠ '\n' := fun hc => h (hc ▸ List.mem_cons_self c l')
    rw [List.cons_append, splitNlL]
    simp only [hc, if_false]
    rw [ih (fun hm => h (List.mem_cons_of_mem c hm))]

theorem split_join {L : List (List Char)} (hL : L ≠ [])
    (hnl : ∀ l ∈ L, '\n' ∉ l) : splitNlL (joinNlL L) = L := by
  induction L with
  | nil => exact absurd rfl hL
  | cons l ls ih =>
    cases ls with
    | nil =>
      rw [joinNlL]
      exact splitNl_of_no_nl (hnl l (List.mem_cons_self _ _))
    | cons l2 ls2 =>
      rw [joinNlL, splitNl_append_nl (hnl l (List.mem_cons_self _ _))]
      rw [ih (by simp) (fun x hx => hnl x (List.mem_cons_of_mem _ hx))]

theorem dropWhile_head_false {p : Char → Bool} {l t : List Char} {c : Char}
    (h : l.dropWhile p = c :: t) : p c = false := by
  induction l with
  | nil => simp at h
  | cons x xs ih =>
    rw [List.dropWhile_cons] at h
    by_cases hp : p x = true
    · exact ih (by simpa [hp] using h)
    · have := (by simpa [hp] using h : x :: xs = c :: t)
      obtain ⟨rfl, -⟩ := List.cons.injEq .. ▸ this
      exact (Bool.not_eq_true _).mp hp

theorem fieldsAux_acc (cur : List Char) (hcur : cur ≠ []) (l : List Char) :
    fieldsAux cur l =
      (cur.reverse ++ l.takeWhile (fun c => !isGoSpace c)) ::
        fieldsAux [] (l.dropWhile (fun c => !isGoSpace c)) := by
  induction l generalizing cur with
  | nil =>
    simp only [List.takeWhile_nil, List.dropWhile_nil]
    rw [fieldsAux, fieldsAux]
    simp [List.isEmpty_iff, hcur]
  | cons c t ih =>
    rw [fieldsAux]
    by_cases hsp : isGoSpace c = true
    · rw [List.takeWhile_cons, List.dropWhile_cons]
      simp only [hsp, Bool.not_true, if_false, List.isEmpty_iff, hcur, if_neg hcur,
        Bool.false_eq_true]
      rw [fieldsAux]
      simp [hsp]
    · rw [List.takeWhile_cons, List.dropWhile_cons]
      have hb : (!isGoSpace c) = true := by simp [hsp]
      simp only [hsp, if_false, hb, if_true]
      rw [ih (c :: cur) (by simp)]
      simp

theorem goFieldsL_cons {l : List Char} (hl : l.dropWhile isGoSpace ≠ []) :
    ∃ rest, goFieldsL l =
      ((l.dropWhile isGoSpace).takeWhile (fun c => !isGoSpace c)) :: rest := by
  induction l with
  | nil => simp at hl
  | cons c t ih =>
    rw [goFieldsL, fieldsAux]
    by_cases hsp : isGoSpace c = true
    · have ht : t.dropWhile isGoSpace ≠ [] := by
        simpa [List.dropWhile_cons, hsp] using hl
      obtain ⟨rest, hrest⟩ := ih ht
      rw [goFieldsL] at hrest
      refine ⟨rest, ?_⟩
      simp only [hsp, if_true, List.isEmpty_nil, List.dropWhile_cons]
      rw [hrest]
    · refine ⟨fieldsAux [] (t.dropWhile (fun x => !isGoSpace x)), ?_⟩
      simp only [hsp, if_false, Bool.false_eq_true]
      rw [fieldsAux_acc [c] (by simp) t]
      simp [List.dropWhile_cons, List.takeWhile_cons, hsp]

theorem replaceFirst_head {tok rest new : List Char} (htok : tok ≠ []) :
    replaceFirstL tok new (tok ++ rest) = new ++ rest := by
  cases tok with
  | nil => exact absurd rfl htok
  | cons h t =>
    rw [List.cons_append, replaceFirstL]
    rw [if_pos (show (h :: t).isPrefixOf (h :: (t ++ rest)) = true from
      isPfxOf_append_self (h :: t) rest)]
    exact congrArg (fun x => new ++ x) (List.drop_left (h :: t) rest)

theorem replaceFirst_token {ws tok rest new : List Char}
    (hws : ∀ c ∈ ws, isGoSpace c = true) (htok : tok ≠ [])
    (hhead : ∀ h t, tok = h :: t → isGoSpace h = false) :
    replaceFirstL tok new (ws ++ tok ++ rest) = ws ++ new ++ rest := by
  induction ws with
  | nil =>
    simp only [List.nil_append]
    exact replaceFirst_head htok
  | cons c ws' ih =>
    simp only [List.cons_append]
    rw [replaceFirstL]
    have hcsp : isGoSpace c = true := hws c (List.mem_cons_self _ _)
    have hnp : ¬tok.isPrefixOf (c :: (ws' ++ tok ++ rest)) = true := by
      obtain ⟨h, t, rfl⟩ : ∃ h t, tok = h :: t := by
        cases tok with
        | nil => exact absurd rfl htok
        | cons h t => exact ⟨h, t, rfl⟩
      have hh : isGoSpace h = false := hhead h t rfl
      intro hp
      simp only [List.isPrefixOf, Bool.and_eq_true, beq_iff_eq] at hp
      rw [hp.1, hcsp] at hh
      simp at hh
    rw [if_neg (by simpa using hnp)]
    have := ih (fun x hx => hws x (List.mem_cons_of_mem _ hx))
    simp only [List.append_assoc] at this ⊢
    rw [this]

theorem padDigits_length (w n : Nat) : (padDigits w n).length = w := by
  induction w generalizing n with
  | zero => rfl
  | succ w ih => rw [padDigits]; simp [ih]

theorem padDigits_digits (w n : Nat) : ∀ ch ∈ padDigits w n, ch.isDigit = true := by
  induction w generalizing n with
  | zero => intro ch h; cases h
  | succ w ih =>
    intro ch h
    rw [padDigits] at h
    rcases List.mem_append.mp h with h | h
    · exact ih (n / 10) ch h
    · rcases List.mem_singleton.mp h with rfl
      have h10 : n % 10 < 10 := Nat.mod_lt _ (by norm_num)
      interval_cases h : (n % 10) <;> decide

/-! ### Gatekeeper lemmas -/

theorem validateCommand_not_allowed (name : String) (args : List String)
    (h : allowedCommands name = false) :
    validateCommand name args = .error (.notAllowed name) := by
  unfold validateCommand
  rw [if_pos (by simp [h])]

theorem RunCmd_not_allowed (ex : ExecEnv) (name : String) (args : List String)
    (h : allowedCommands name = false) :
    RunCmd ex name args = (.error (.notAllowed name), []) := by
  unfold RunCmd
  rw [validateCommand_not_allowed name args h]

theorem findBadArg_mem {args : List String} {a : String} (ha : a ∈ args)
    (hm : argHasMeta a = true) : ∃ b, findBadArg args = some b := by
  induction args with
  | nil => cases ha
  | cons x rest ih =>
    rw [findBadArg]
    by_cases hx : argHasMeta x = true
    · exact ⟨x, by simp [hx]⟩
    · rcases List.mem_cons.mp ha with rfl | ha
      · exact absurd hm hx
      · obtain ⟨b, hb⟩ := ih ha
        exact ⟨b, by simp [hx, hb]⟩

/-- A trivial outside world used to instantiate universally quantified
`ExecEnv` arguments on concrete runs: every spawned process succeeds
with empty output. -/
def exOk : ExecEnv := fun _ => .ok ""

/-- An outside world where `useradd` succeeds and everything else fails
(used for concrete runs of the compensation path of `CreateUser`). -/
def exUA : ExecEnv := fun c =>
  if c.args.head? = some "useradd" then .ok "" else .error "boom"

/-! ### Claim theorems -/

/-- C1: for every command name and argument list, `RunCmd` returns an
error and spawns no process when the name is not in the static allowlist
(in particular `RunCmd "curl" ...` fails with the command-not-allowed
error), and returns an error and spawns no process when any argument
contains one of the shell metacharacters
`; & | \x60 $ ( ) < > \n \r`, regardless of the command name. -/
theorem RunCmd_gatekeeper :
    (∀ (ex : ExecEnv) (args : List String),
        RunCmd ex "curl" args = (.error (.notAllowed "curl"), [])) ∧
    (∀ (ex : ExecEnv) (name : String) (args : List String),
        allowedCommands name = false →
        RunCmd ex name args = (.error (.notAllowed name), [])) ∧
    (∀ (ex : ExecEnv) (name : String) (args : List String),
        (∃ arg ∈ args, ∃ ch ∈ shellMetaChars, goContains arg ch = true) →
        ∃ e, RunCmd ex name args = (.error e, [])) := by
  refine ⟨?_, ?_, ?_⟩
  · intro ex args
    exact RunCmd_not_allowed ex "curl" args (by decide)
  · intro ex name args h
    exact RunCmd_not_allowed ex name args h
  · rintro ex name args ⟨arg, harg, ch, hch, hcont⟩
    have hbad : argHasMeta arg = true := List.any_eq_true.mpr ⟨ch, hch, hcont⟩
    by_cases hn : allowedCommands name = true
    · obtain ⟨b, hb⟩ := findBadArg_mem harg hbad
      refine ⟨.disallowedArg b, ?_⟩
      unfold RunCmd validateCommand
      rw [if_neg (by simp [hn]), hb]
    · exact ⟨.notAllowed name,
        RunCmd_not_allowed ex name args (by simpa using hn)⟩

theorem RunCmd_gatekeeper_witness :
    RunCmd exOk "curl" ["-s"] = (.error (.notAllowed "curl"), []) ∧
    RunCmd exOk "wget" ["x"] = (.error (.notAllowed "wget"), []) ∧
    (∃ e, RunCmd exOk "ls" ["a;b"] = (.error e, [])) :=
  ⟨RunCmd_gatekeeper.1 exOk ["-s"],
   RunCmd_gatekeeper.2.1 exOk "wget" ["x"] (by decide),
   RunCmd_gatekeeper.2.2 exOk "ls" ["a;b"] ⟨"a;b", by decide, ";", by decide, by decide⟩⟩

/-- C3: `postqueue`, `postmap`, `bash` and `sudo` are absent from the
allowlist, so every `RunCmd` call with those names fails at the
gatekeeper with the command-not-allowed error and spawns nothing; hence
the mail-queue endpoints, the postmap rebuild step, the WP-CLI wrapper
`wpCmd` and the command launched by `RunCronNow` never run their target
command. -/
theorem unlisted_callers_blocked :
    allowedCommands "postqueue" = false ∧ allowedCommands "postmap" = false ∧
    allowedCommands "bash" = false ∧ allowedCommands "sudo" = false ∧
    (∀ (ex : ExecEnv) (args : List String),
        RunCmd ex "postqueue" args = (.error (.notAllowed "postqueue"), []) ∧
        RunCmd ex "postmap" args = (.error (.notAllowed "postmap"), []) ∧
        RunCmd ex "bash" args = (.error (.notAllowed "bash"), []) ∧
        RunCmd ex "sudo" args = (.error (.notAllowed "sudo"), [])) ∧
    (∀ ex : ExecEnv,
        GetMailQueue ex = (.err 500 (cmdErrorMessage (.notAllowed "postqueue")), []) ∧
        FlushMailQueue ex = (.json 200 [("status", "flushed")], []) ∧
        postmapRebuild ex = (.error (.notAllowed "postmap"), [])) ∧
    (∀ (ex : ExecEnv) (docroot : String) (args : List String),
        wpCmd ex docroot args = (.error (.notAllowed "sudo"), [])) ∧
    (∀ (ex : ExecEnv) (cmd : String),
        runCronNowSpawn ex cmd = (.error (.notAllowed "bash"), [])) := by
  refine ⟨by decide, by decide, by decide, by decide, ?_, ?_, ?_, ?_⟩
  · intro ex args
    exact ⟨RunCmd_not_allowed ex "postqueue" args (by decide),
      RunCmd_not_allowed ex "postmap" args (by decide),
      RunCmd_not_allowed ex "bash" args (by decide),
      RunCmd_not_allowed ex "sudo" args (by decide)⟩
  · intro ex
    refine ⟨?_, ?_, ?_⟩
    · unfold GetMailQueue
      rw [RunCmd_not_allowed ex "postqueue" ["-p"] (by decide)]
    · unfold FlushMailQueue
      rw [RunCmd_not_allowed ex "postqueue" ["-f"] (by decide)]
    · exact RunCmd_not_allowed ex "postmap" [postfixVirtualMapsFile] (by decide)
  · intro ex docroot args
    exact RunCmd_not_allowed ex "sudo" _ (by decide)
  · intro ex cmd
    exact RunCmd_not_allowed ex "bash" _ (by decide)

/-- C4: every character of `Sanitize s` is in `[A-Za-z0-9._-]`;
`Sanitize` is idempotent; `Sanitize "" = ""`; and
`Sanitize "a;b|c" = "abc"`. -/
theorem sanitize_spec :
    (∀ (s : String), ∀ c ∈ (Sanitize s).data, isSanitizedChar c = true) ∧
    (∀ s : String, Sanitize (Sanitize s) = Sanitize s) ∧
    Sanitize "" = "" ∧ Sanitize "a;b|c" = "abc" := by
  refine ⟨?_, ?_, by decide, by decide⟩
  · intro s c hc
    exact List.of_mem_filter hc
  · intro s
    show String.mk ((s.data.filter _).filter _) = String.mk (s.data.filter _)
    rw [List.filter_filter]
    congr 1
    apply List.filter_congr
    intro c _
    exact Bool.and_self _

theorem sanitize_spec_witness : isSanitizedChar 'a' = true :=
  sanitize_spec.1 "a;b" 'a' (by decide)

/-- C2 (counterexample): the path confiner does not fail on the two
traversal inputs; `os.ErrPermission` (the only error `safePath` can
produce) is returned for neither. -/
theorem safePath_traversal_counterexample :
    safePath "../../etc/passwd" ≠ .error .errPermission ∧
    safePath "a/../../b" ≠ .error .errPermission := by decide

/-- C2 (amended): for root `/var/www` the confiner succeeds on both
traversal inputs: cleaning the force-rooted request neutralises the `..`
segments, so `safePath "../../etc/passwd"` resolves to
`/var/www/etc/passwd` and `safePath "a/../../b"` resolves to
`/var/www/b`, both inside the root and without error. -/
theorem safePath_traversal_amended :
    safePath "../../etc/passwd" = .ok "/var/www/etc/passwd" ∧
    safePath "a/../../b" = .ok "/var/www/b" := by decide

theorem ok_of_guard {b : Bool} {x res : String}
    (h : (if ¬b = true then Except.error GoError.errPermission
          else Except.ok x) = .ok res) :
    b = true ∧ res = x := by
  by_cases hb : b = true
  · rw [if_neg (not_not_intro hb)] at h
    cases h
    exact ⟨hb, rfl⟩
  · rw [if_pos hb] at h
    cases h

theorem safePath_ok_imp {req res : String} (h : safePath req = .ok res) :
    goStartsWith res fileManagerRoot = true := by
  simp only [safePath] at h
  obtain ⟨hb, rfl⟩ := ok_of_guard h
  exact hb

/-- C10: `safePath ""` resolves to exactly `/var/www`,
`safePath "/a/b"` resolves to `/var/www/a/b`, and every successful
result has the root as a literal string prefix. -/
theorem safePath_contract :
    safePath "" = .ok "/var/www" ∧ safePath "/a/b" = .ok "/var/www/a/b" ∧
    ∀ (req res : String), safePath req = .ok res →
      goStartsWith res fileManagerRoot = true := by
  refine ⟨by decide, by decide, ?_⟩
  intro req res h
  exact safePath_ok_imp h

theorem safePath_contract_witness : goStartsWith "/var/www/x" fileManagerRoot = true :=
  safePath_contract.2.2 "x" "/var/www/x" (by decide)

/-- C5 (code bug, evaluation): parsing the zone file built by
`buildZoneFile "example.com" "1.2.3.4" "2024060112"` recovers the serial
`2024060112` but an empty record list — the parser demands field 3 to be
`IN` (i.e. a TTL field present) while the builder emits records without
a TTL, so no A record (`@` or `www`) survives the round trip. -/
theorem zone_roundtrip_eval :
    parseZoneContent "example.com" (buildZoneFile "example.com" "1.2.3.4" "2024060112") =
      { domain := "example.com", serial := 2024060112, records := [] } := by decide

/-- C7 (code bug, evaluation): on the crontab
`"SHELL=/bin/sh\n* * * * * echo hi\n"`, `ListCronJobs` reports the job
with ID 1 to be `* * * * * echo hi` (the `SHELL` line is a directive for
the parser), yet the positional delete with id 1 removes the `SHELL`
line and keeps the job line: the two sides of the claim use different
record predicates (`removeCronLine` does not exclude `SHELL` lines or
lines with fewer than six fields). -/
theorem removeCron_wrong_line_eval :
    (parseCronLines "SHELL=/bin/sh\n* * * * * echo hi\n" "root").map
        (fun j => (j.id, j.command)) = [(1, "echo hi")] ∧
    removeCronContent 1 "SHELL=/bin/sh\n* * * * * echo hi\n" =
      "* * * * * echo hi\n" := by decide

theorem removeCronAux_noop (id : Nat) (lines : List String) :
    ∀ jobIdx : Nat, jobIdx + (lines.filter isRemovableCronLine).length < id →
    removeCronAux id jobIdx lines = lines := by
  induction lines with
  | nil => intro _ _; rfl
  | cons l rest ih =>
    intro jobIdx h
    rw [removeCronAux]
    rw [List.filter_cons] at h
    by_cases hl : isRemovableCronLine l = true
    · simp only [hl, if_true] at h ⊢
      simp only [List.length_cons] at h
      rw [if_neg (by omega)]
      rw [ih (jobIdx + 1) (by omega)]
    · simp only [hl, if_false, Bool.false_eq_true] at h ⊢
      rw [ih jobIdx (by omega)]

/-- C8: calling the positional cron delete with a target index strictly
greater than the number of lines it counts as records leaves the file
contents byte-for-byte unchanged. -/
theorem removeCron_out_of_range (content : String) (id : Nat)
    (h : removableCronCount content < id) :
    removeCronContent id content = content := by
  unfold removeCronContent
  rw [removeCronAux_noop id (goSplitNl content) 0
      (by simpa [removableCronCount] using h)]
  show String.mk (joinNlL (((splitNlL content.data).map _).map _)) = content
  have hm : (((splitNlL content.data).map (⟨·⟩)).map String.data) =
      splitNlL content.data := by
    rw [List.map_map]
    exact List.map_id _
  rw [hm, join_split]

theorem removeCron_out_of_range_witness :
    removeCronContent 5 "# c\n1 2 3 4 5 cmd\n" = "# c\n1 2 3 4 5 cmd\n" :=
  removeCron_out_of_range "# c\n1 2 3 4 5 cmd\n" 5 (by decide)

theorem contains_single_false {s : List Char} {c : Char} (h : c ∉ s) :
    containsSubL s [c] = false := by
  by_cases hc : containsSubL s [c] = true
  · exact absurd (containsSub_mem hc c (List.mem_singleton_self c)) h
  · simpa using hc

theorem sanitize_no_meta (s : String) : argHasMeta (Sanitize s) = false := by
  have hmeta : ∀ ch ∈ shellMetaChars, ∀ c ∈ ch.data, isSanitizedChar c = false := by
    decide
  have hne : ∀ ch ∈ shellMetaChars, ch.data ≠ [] := by decide
  have hnot : ¬argHasMeta (Sanitize s) = true := by
    rw [argHasMeta, List.any_eq_true]
    rintro ⟨ch, hch, hcont⟩
    obtain ⟨c, hc⟩ : ∃ c, c ∈ ch.data := by
      cases h : ch.data with
      | nil => exact absurd h (hne ch hch)
      | cons a t => exact ⟨a, h ▸ List.mem_cons_self a t⟩
    have hin : c ∈ (Sanitize s).data := containsSub_mem hcont c hc
    have htrue := List.of_mem_filter hin
    rw [hmeta ch hch c hc] at htrue
    cases htrue
  simpa using hnot

theorem findBadArg_userdel (u : String) :
    findBadArg ["-r", Sanitize u] = none := by
  rw [findBadArg, if_neg (by decide)]
  rw [findBadArg, if_neg (by simp [sanitize_no_meta])]
  rfl

theorem RunCmd_spawn_of_valid (ex : ExecEnv) (name : String) (args : List String)
    (hn : allowedCommands name = true) (hargs : findBadArg args = none) :
    (RunCmd ex name args).2 = [⟨"sudo", name :: args⟩] := by
  unfold RunCmd validateCommand
  rw [if_neg (by simp [hn]), hargs]
  cases hx : ex ⟨"sudo", name :: args⟩ with
  | ok out => simp [hx]
  | error e => simp [hx]

/-- C9: in `CreateUser`, when the request passes validation, the
`useradd` step succeeds and the `chpasswd` step fails, the handler
spawns the compensating `userdel -r <username>` and answers with the
500 error `failed to set password` — never with a success payload. -/
theorem CreateUser_compensation (ex : ExecEnv) (req : createUserRequest)
    (hu1 : Sanitize req.username ≠ "") (hu2 : (Sanitize req.username).length ≤ 32)
    (hp1 : req.password ≠ "") (hp2 : 8 ≤ req.password.length)
    (hsh : allowedShells (if req.shell = "" then "/bin/bash" else req.shell) = true)
    (hua : (RunCmd ex "useradd"
        (useraddArgs (if req.shell = "" then "/bin/bash" else req.shell)
          (Sanitize req.username) req.groups)).1.isOk = true)
    (hcp : (RunCmd ex "chpasswd"
        [Sanitize req.username ++ ":" ++ req.password]).1.isOk = false) :
    (CreateUser ex req).1 = .err 500 "failed to set password" ∧
    (⟨"sudo", ["userdel", "-r", Sanitize req.username]⟩ : SpawnedCmd) ∈
      (CreateUser ex req).2 := by
  simp only [CreateUser]
  have hc1 : ¬((decide (Sanitize req.username = "") ||
      decide ((Sanitize req.username).length > 32)) = true) := by
    simp only [Bool.or_eq_true, decide_eq_true_eq, not_or]
    exact ⟨hu1, by omega⟩
  have hc2 : ¬((decide (req.password = "") ||
      decide (req.password.length < 8)) = true) := by
    simp only [Bool.or_eq_true, decide_eq_true_eq, not_or]
    exact ⟨hp1, by omega⟩
  rw [if_neg hc1, if_neg hc2]
  rw [if_neg (not_not_intro hsh)]
  rcases h1 : RunCmd ex "useradd"
      (useraddArgs (if req.shell = "" then "/bin/bash" else req.shell)
        (Sanitize req.username) req.groups) with ⟨r1, tr1⟩
  rw [h1] at hua
  cases r1 with
  | error e => simp [Except.isOk, Except.toBool] at hua
  | ok out1 =>
    rcases h2 : RunCmd ex "chpasswd"
        [Sanitize req.username ++ ":" ++ req.password] with ⟨r2, tr2⟩
    rw [h2] at hcp
    cases r2 with
    | ok out2 => simp [Except.isOk, Except.toBool] at hcp
    | error e2 =>
      refine ⟨rfl, ?_⟩
      show _ ∈ tr1 ++ tr2 ++ (RunCmd ex "userdel" ["-r", Sanitize req.username]).2
      rw [RunCmd_spawn_of_valid ex "userdel" ["-r", Sanitize req.username]
          (by decide) (findBadArg_userdel req.username)]
      exact List.mem_append_right _ (List.mem_singleton_self _)

theorem CreateUser_compensation_witness :
    (CreateUser exUA ⟨"alice", "password1", "", ""⟩).1 =
        .err 500 "failed to set password" ∧
    (⟨"sudo", ["userdel", "-r", "alice"]⟩ : SpawnedCmd) ∈
      (CreateUser exUA ⟨"alice", "password1", "", ""⟩).2 :=
  CreateUser_compensation exUA ⟨"alice", "password1", "", ""⟩
    (by decide) (by decide) (by decide) (by decide) (by decide)
    (by decide) (by decide)

/-! ### Lemmas for the serial bump -/

theorem findIdx_get_some {p : List Char → Bool} {L : List (List Char)} {l : List Char}
    (h : L.get? (L.findIdx p) = some l) : p l = true := by
  induction L with
  | nil => simp at h
  | cons x rest ih =>
    rw [List.findIdx_cons] at h
    by_cases hx : p x = true
    · rw [hx, cond_true, List.get?_cons_zero] at h
      cases h
      exact hx
    · have hx' : p x = false := by simpa using hx
      rw [hx', cond_false, List.get?_cons_succ] at h
      exact ih h

theorem bumpLinesAux_get_ne (serial : List Char) (L : List (List Char)) :
    ∀ j, j ≠ L.findIdx isSerialLineL →
      (bumpLinesAux serial L).get? j = L.get? j := by
  induction L with
  | nil => intro j _; rfl
  | cons l rest ih =>
    intro j hj
    rw [List.findIdx_cons] at hj
    rw [bumpLinesAux]
    by_cases hl : isSerialLineL l = true
    · rw [if_pos hl]
      rw [hl, cond_true] at hj
      cases j with
      | zero => exact absurd rfl hj
      | succ j' => rw [List.get?_cons_succ, List.get?_cons_succ]
    · have hl' : isSerialLineL l = false := by simpa using hl
      rw [if_neg hl]
      rw [hl', cond_false] at hj
      cases j with
      | zero => rfl
      | succ j' =>
        rw [List.get?_cons_succ, List.get?_cons_succ]
        exact ih j' (fun h => hj (by rw [h]))

theorem bumpLinesAux_get_eq (serial : List Char) (L : List (List Char))
    (l : List Char) (hget : L.get? (L.findIdx isSerialLineL) = some l) :
    (bumpLinesAux serial L).get? (L.findIdx isSerialLineL) =
      some (bumpLine serial l) := by
  induction L with
  | nil => simp at hget
  | cons x rest ih =>
    rw [List.findIdx_cons] at hget ⊢
    rw [bumpLinesAux]
    by_cases hx : isSerialLineL x = true
    · rw [if_pos hx]
      rw [hx, cond_true] at hget ⊢
      rw [List.get?_cons_zero] at hget
      cases hget
      rw [List.get?_cons_zero]
    · have hx' : isSerialLineL x = false := by simpa using hx
      rw [if_neg hx]
      rw [hx', cond_false] at hget ⊢
      rw [List.get?_cons_succ] at hget
      rw [List.get?_cons_succ]
      exact ih hget

theorem mem_bumpLinesAux {serial : List Char} {L : List (List Char)}
    {l : List Char} (h : l ∈ bumpLinesAux serial L) :
    l ∈ L ∨ ∃ l₀ ∈ L, l = bumpLine serial l₀ := by
  induction L with
  | nil => cases h
  | cons x rest ih =>
    rw [bumpLinesAux] at h
    by_cases hx : isSerialLineL x = true
    · rw [if_pos hx] at h
      rcases List.mem_cons.mp h with rfl | h
      · exact Or.inr ⟨x, List.mem_cons_self _ _, rfl⟩
      · exact Or.inl (List.mem_cons_of_mem _ h)
    · rw [if_neg hx] at h
      rcases List.mem_cons.mp h with rfl | h
      · exact Or.inl (List.mem_cons_self _ _)
      · rcases ih h with h | ⟨l₀, hl₀, rfl⟩
        · exact Or.inl (List.mem_cons_of_mem _ h)
        · exact Or.inr ⟨l₀, List.mem_cons_of_mem _ hl₀, rfl⟩

theorem mem_bumpLine {serial l₀ : List Char} {x : Char}
    (h : x ∈ bumpLine serial l₀) : x ∈ l₀ ∨ x ∈ serial := by
  rw [bumpLine] at h
  cases hf : goFieldsL l₀ with
  | nil => rw [hf] at h; exact Or.inl h
  | cons w ws => rw [hf] at h; exact mem_replaceFirst h

theorem formatYMDH_digits (t : GoTime) :
    ∀ ch ∈ (formatYMDH t).data, ch.isDigit = true := by
  intro ch h
  have h' : ch ∈ padDigits 4 t.year ++ padDigits 2 t.month ++
      padDigits 2 t.day ++ padDigits 2 t.hour := h
  rcases List.mem_append.mp h' with h'' | h''
  · rcases List.mem_append.mp h'' with h3 | h3
    · rcases List.mem_append.mp h3 with h4 | h4
      · exact padDigits_digits 4 t.year ch h4
      · exact padDigits_digits 2 t.month ch h4
    · exact padDigits_digits 2 t.day ch h3
  · exact padDigits_digits 2 t.hour ch h''

theorem formatYMDH_length (t : GoTime) : (formatYMDH t).length = 10 := by
  show (padDigits 4 t.year ++ padDigits 2 t.month ++
      padDigits 2 t.day ++ padDigits 2 t.hour).length = 10
  simp [padDigits_length]

theorem formatYMDH_no_nl (t : GoTime) : '\n' ∉ (formatYMDH t).data := by
  intro h
  have := formatYMDH_digits t '\n' h
  cases this

theorem splitNl_bump (t : GoTime) (c : String) :
    splitNlL (bumpSerial t c).data =
      bumpLinesAux (formatYMDH t).data (splitNlL c.data) := by
  show splitNlL (joinNlL (bumpLinesAux (formatYMDH t).data (splitNlL c.data))) = _
  apply split_join
  · cases h : splitNlL c.data with
    | nil => exact absurd h (splitNl_ne_nil _)
    | cons x rest =>
      rw [bumpLinesAux]
      by_cases hx : isSerialLineL x = true
      · rw [if_pos hx]; simp
      · rw [if_neg hx]; simp
  · intro l hl
    rcases mem_bumpLinesAux hl with hmem | ⟨l₀, hl₀, rfl⟩
    · exact splitNl_no_nl hmem
    · intro hnl
      rcases mem_bumpLine hnl with h | h
      · exact splitNl_no_nl hl₀ h
      · exact formatYMDH_no_nl t h

theorem bumpLine_serial {l : List Char} (hl : isSerialLineL l = true)
    (serial : List Char) :
    bumpLine serial l =
      l.takeWhile isGoSpace ++ serial ++
        (l.dropWhile isGoSpace).dropWhile (fun c => !isGoSpace c) := by
  have hnsp : ∃ c ∈ l, isGoSpace c = false := by
    rw [isSerialLineL, Bool.or_eq_true] at hl
    rcases hl with h | h
    · exact ⟨'S', containsSub_mem h 'S' (by decide), by decide⟩
    · exact ⟨'s', containsSub_mem h 's' (by decide), by decide⟩
  have hdw : l.dropWhile isGoSpace ≠ [] := by
    intro hnil
    rw [List.dropWhile_eq_nil_iff] at hnil
    obtain ⟨ch, hc, hf⟩ := hnsp
    rw [hnil ch hc] at hf
    cases hf
  obtain ⟨rest, hfields⟩ := goFieldsL_cons hdw
  set tok := (l.dropWhile isGoSpace).takeWhile (fun c => !isGoSpace c) with htok
  have htokne : tok ≠ [] := by
    rw [htok]
    cases hdw2 : l.dropWhile isGoSpace with
    | nil => exact absurd hdw2 hdw
    | cons ch tl =>
      have hch : isGoSpace ch = false := dropWhile_head_false hdw2
      simp [List.takeWhile_cons, hch]
  have hheadtok : ∀ h t, tok = h :: t → isGoSpace h = false := by
    intro h t hht
    have hmem : h ∈ tok := hht ▸ List.mem_cons_self _ _
    rw [htok] at hmem
    have := List.mem_takeWhile_imp hmem
    simpa using this
  have hdecomp : l = l.takeWhile isGoSpace ++ tok ++
      (l.dropWhile isGoSpace).dropWhile (fun c => !isGoSpace c) := by
    conv_lhs => rw [← List.takeWhile_append_dropWhile (p := isGoSpace) (l := l)]
    rw [List.append_assoc]
    congr 1
    rw [htok]
    exact (List.takeWhile_append_dropWhile (p := fun c => !isGoSpace c)
      (l := l.dropWhile isGoSpace)).symm
  rw [bumpLine, hfields]
  show replaceFirstL tok serial l = _
  conv_lhs => rw [hdecomp]
  exact replaceFirst_token (fun ch hch => List.mem_takeWhile_imp hch) htokne hheadtok

/-- C6: `bumpSerial` writes the hour-granularity wall-clock serial — ten
decimal digits, year-month-day-hour — over the first
whitespace-delimited token of the first line containing `Serial` (or
`serial`), leaves every other line unchanged, and two applications at
instants within the same hour produce the same serial (and hence the
same output). -/
theorem bumpSerial_spec (t t' : GoTime) (c : String) :
    ((formatYMDH t).length = 10 ∧ ∀ ch ∈ (formatYMDH t).data, ch.isDigit = true) ∧
    (∀ j, j ≠ (splitNlL c.data).findIdx isSerialLineL →
        (splitNlL (bumpSerial t c).data).get? j = (splitNlL c.data).get? j) ∧
    (∀ l, (splitNlL c.data).get? ((splitNlL c.data).findIdx isSerialLineL) = some l →
        (splitNlL (bumpSerial t c).data).get?
            ((splitNlL c.data).findIdx isSerialLineL) =
          some (l.takeWhile isGoSpace ++ (formatYMDH t).data ++
            (l.dropWhile isGoSpace).dropWhile (fun ch => !isGoSpace ch))) ∧
    (t.year = t'.year → t.month = t'.month → t.day = t'.day → t.hour = t'.hour →
        bumpSerial t c = bumpSerial t' c) := by
  refine ⟨⟨formatYMDH_length t, formatYMDH_digits t⟩, ?_, ?_, ?_⟩
  · intro j hj
    rw [splitNl_bump]
    exact bumpLinesAux_get_ne _ _ j hj
  · intro l hget
    rw [splitNl_bump]
    have hser : isSerialLineL l = true := findIdx_get_some hget
    rw [bumpLinesAux_get_eq _ _ l hget, bumpLine_serial hser]
  · intro h1 h2 h3 h4
    have hfmt : formatYMDH t = formatYMDH t' := by
      rw [formatYMDH, formatYMDH, h1, h2, h3, h4]
    rw [bumpSerial, bumpSerial, hfmt]

theorem bumpSerial_spec_witness :
    bumpSerial ⟨2024, 6, 1, 12, 30, 0⟩ "x\n 99  ; Serial\ny" =
      bumpSerial ⟨2024, 6, 1, 12, 45, 59⟩ "x\n 99  ; Serial\ny" ∧
    (splitNlL (bumpSerial ⟨2024, 6, 1, 12, 30, 0⟩ "x\n 99  ; Serial\ny").data).get? 0 =
      some "x".data :=
  ⟨(bumpSerial_spec ⟨2024, 6, 1, 12, 30, 0⟩ ⟨2024, 6, 1, 12, 45, 59⟩
      "x\n 99  ; Serial\ny").2.2.2 rfl rfl rfl rfl,
   by
     have hfr := (bumpSerial_spec ⟨2024, 6, 1, 12, 30, 0⟩ ⟨2024, 6, 1, 12, 45, 59⟩
        "x\n 99  ; Serial\ny").2.1 0 (by decide)
     rw [hfr]
     decide⟩

end Blogron
